import Mathlib

/-!
Verification of the resilient batch-classification pipeline of `startidy`.

The development shallowly embeds the core functions of the repository:

* `src/services/gemini.ts` — `parseBatchClassifierResponse` (direct JSON
  parse, truncation repair, regex fallback extraction, default gap-fill);
* `src/utils/rate-limiter.ts` — `retryWithBackoff` and `runWithConcurrency`;
* `src/commands/classify.ts` — the per-item list-assignment step and the
  batch orchestration loop of `classifyAndAddRepos`.

JavaScript strings are modelled as `List Char` / `String`, `JSON.parse` by a
fuel-based total JSON parser, `Map` by an association list with in-place
update, and awaited external calls by explicit outcome functions.
-/

namespace StarTidy

/-! ## JavaScript string helpers -/

/-- The white-space characters recognised by JavaScript `String.prototype.trim`
and by the `\s` regex class (WhiteSpace ∪ LineTerminator). -/
def jsWsChars : List Char :=
  [' ', '\t', '\n', '\r', '\x0b', '\x0c', Char.ofNat 0xa0, Char.ofNat 0x1680,
   Char.ofNat 0x2000, Char.ofNat 0x2001, Char.ofNat 0x2002, Char.ofNat 0x2003,
   Char.ofNat 0x2004, Char.ofNat 0x2005, Char.ofNat 0x2006, Char.ofNat 0x2007,
   Char.ofNat 0x2008, Char.ofNat 0x2009, Char.ofNat 0x200a, Char.ofNat 0x2028,
   Char.ofNat 0x2029, Char.ofNat 0x202f, Char.ofNat 0x205f, Char.ofNat 0x3000,
   Char.ofNat 0xfeff]

def isJsWs (c : Char) : Bool := jsWsChars.contains c

/-- `String.prototype.trim` on a character list. -/
def jsTrimChars (l : List Char) : List Char :=
  ((l.dropWhile isJsWs).reverse.dropWhile isJsWs).reverse

/-- Number of occurrences of `c`, as computed by `(s.match(/c/g) || []).length`. -/
def countChar (c : Char) (l : List Char) : Nat := l.countP (· == c)

/-- `String.prototype.lastIndexOf` for a single character (`none` for `-1`). -/
def lastIndexOfChar (c : Char) (l : List Char) : Option Nat :=
  (l.reverse.findIdx? (· == c)).map (fun j => l.length - 1 - j)

/-- `String.prototype.endsWith` for a single-character suffix. -/
def endsWithChar (c : Char) (l : List Char) : Bool := l.getLast? == some c

/-- `Array.prototype.slice(0, e)` / `String.prototype.slice(0, e)`: a negative
end index counts from the end of the list, clamped at zero. -/
def jsSliceTo (l : List α) (e : Int) : List α :=
  if e < 0 then l.take (l.length - e.natAbs) else l.take e.toNat

/-- `String.prototype.split(sep)` for a one-character separator; never returns
an empty list (`"".split(",") = [""]`). -/
def splitOnChar (sep : Char) : List Char → List (List Char)
  | [] => [[]]
  | c :: rest =>
    let r := splitOnChar sep rest
    if c = sep then [] :: r
    else
      match r with
      | [] => [[c]]
      | p :: ps => (c :: p) :: ps

/-- `String.prototype.replace(/c/g, "")`: remove every occurrence of `c`. -/
def removeAllChar (c : Char) (l : List Char) : List Char := l.filter (· != c)

/-! ## JSON values and a model of `JSON.parse` -/

/-- A parsed JSON value. Numbers keep their source lexeme: none of the modelled
code inspects numeric values beyond zero-ness and equality. -/
inductive Json where
  | null
  | bool (b : Bool)
  | num (lexeme : String)
  | str (s : String)
  | arr (elems : List Json)
  | obj (fields : List (String × Json))

/-- JSON insignificant white-space (RFC 8259): space, tab, line feed, carriage
return. `JSON.parse` accepts exactly these, unlike JavaScript `trim`. -/
def isJsonWs (c : Char) : Bool := c == ' ' || c == '\t' || c == '\n' || c == '\r'

def skipJsonWs (l : List Char) : List Char := l.dropWhile isJsonWs

def hexDigitVal (c : Char) : Option Nat :=
  if c.isDigit then some (c.toNat - '0'.toNat)
  else if 'a' ≤ c ∧ c ≤ 'f' then some (c.toNat - 'a'.toNat + 10)
  else if 'A' ≤ c ∧ c ≤ 'F' then some (c.toNat - 'A'.toNat + 10)
  else none

def escapeChar : Char → Option Char
  | '"' => some '"'
  | '\\' => some '\\'
  | '/' => some '/'
  | 'b' => some '\x08'
  | 'f' => some '\x0c'
  | 'n' => some '\n'
  | 'r' => some '\r'
  | 't' => some '\t'
  | _ => none

/-- Body of a JSON string after the opening quote: unescaped control
characters are rejected, escapes are decoded. -/
def parseJStringAux : Nat → List Char → List Char → Option (String × List Char)
  | 0, _, _ => none
  | _ + 1, _, [] => none
  | _ + 1, acc, '"' :: rest => some (String.mk acc.reverse, rest)
  | fuel + 1, acc, '\\' :: 'u' :: a :: b :: c :: d :: rest =>
    match hexDigitVal a, hexDigitVal b, hexDigitVal c, hexDigitVal d with
    | some va, some vb, some vc, some vd =>
      parseJStringAux fuel (Char.ofNat (((va * 16 + vb) * 16 + vc) * 16 + vd) :: acc) rest
    | _, _, _, _ => none
  | fuel + 1, acc, '\\' :: e :: rest =>
    match escapeChar e with
    | some ch => parseJStringAux fuel (ch :: acc) rest
    | none => none
  | fuel + 1, acc, c :: rest =>
    if c.toNat < 0x20 then none else parseJStringAux fuel (c :: acc) rest

def parseJString (l : List Char) : Option (String × List Char) :=
  parseJStringAux (l.length + 1) [] l

def spanDigits (l : List Char) : List Char × List Char :=
  (l.takeWhile Char.isDigit, l.dropWhile Char.isDigit)

/-- An optional fraction part `.[0-9]+`; on no match the input is unchanged. -/
def parseFracPart (l : List Char) : List Char × List Char :=
  match l with
  | '.' :: r =>
    let (ds, r2) := spanDigits r
    if ds = [] then ([], l) else ('.' :: ds, r2)
  | _ => ([], l)

/-- An optional exponent part `[eE][+-]?[0-9]+`; on no match the input is
unchanged. -/
def parseExpPart (l : List Char) : List Char × List Char :=
  match l with
  | e :: r =>
    if e = 'e' ∨ e = 'E' then
      let (sgn, r1) := match r with
        | '+' :: r2 => (['+'], r2)
        | '-' :: r2 => (['-'], r2)
        | _ => (([] : List Char), r)
      let (ds, r2) := spanDigits r1
      if ds = [] then ([], l) else (e :: (sgn ++ ds), r2)
    else ([], l)
  | _ => ([], l)

/-- The longest valid JSON number lexeme at the head of the input:
`-?(0|[1-9][0-9]*)(\.[0-9]+)?([eE][+-]?[0-9]+)?`. An input on which
`JSON.parse` errors inside a number leaves unconsumable characters behind and
is rejected by the document-level checks. -/
def parseNumLexeme (l : List Char) : Option (String × List Char) :=
  let (sign, l1) := match l with
    | '-' :: r => (['-'], r)
    | _ => (([] : List Char), l)
  match l1 with
  | '0' :: r =>
    let (frac, l2) := parseFracPart r
    let (ex, l3) := parseExpPart l2
    some (String.mk (sign ++ '0' :: (frac ++ ex)), l3)
  | c :: _ =>
    if c.isDigit then
      let (ds, r) := spanDigits l1
      let (frac, l2) := parseFracPart r
      let (ex, l3) := parseExpPart l2
      some (String.mk (sign ++ ds ++ frac ++ ex), l3)
    else none
  | [] => none

mutual
/-- A JSON value, consuming from the head of the input (no leading
white-space; callers skip it). Fuel-based for totality. -/
def parseJValue : Nat → List Char → Option (Json × List Char)
  | 0, _ => none
  | fuel + 1, l =>
    match l with
    | '{' :: rest => parseJObjBody fuel (skipJsonWs rest)
    | '[' :: rest => parseJArrBody fuel (skipJsonWs rest)
    | '"' :: rest => (parseJString rest).map (fun p => (.str p.1, p.2))
    | 't' :: 'r' :: 'u' :: 'e' :: rest => some (.bool true, rest)
    | 'f' :: 'a' :: 'l' :: 's' :: 'e' :: rest => some (.bool false, rest)
    | 'n' :: 'u' :: 'l' :: 'l' :: rest => some (.null, rest)
    | _ => (parseNumLexeme l).map (fun p => (.num p.1, p.2))

def parseJObjBody : Nat → List Char → Option (Json × List Char)
  | 0, _ => none
  | fuel + 1, l =>
    match l with
    | '}' :: rest => some (.obj [], rest)
    | _ => parseJFields fuel l []

def parseJFields : Nat → List Char → List (String × Json) → Option (Json × List Char)
  | 0, _, _ => none
  | fuel + 1, '"' :: rest, acc =>
    match parseJString rest with
    | none => none
    | some (k, r1) =>
      match skipJsonWs r1 with
      | ':' :: r2 =>
        match parseJValue fuel (skipJsonWs r2) with
        | none => none
        | some (v, r3) =>
          match skipJsonWs r3 with
          | ',' :: r4 => parseJFields fuel (skipJsonWs r4) (acc ++ [(k, v)])
          | '}' :: r4 => some (.obj (acc ++ [(k, v)]), r4)
          | _ => none
      | _ => none
  | _ + 1, _, _ => none

def parseJArrBody : Nat → List Char → Option (Json × List Char)
  | 0, _ => none
  | fuel + 1, l =>
    match l with
    | ']' :: rest => some (.arr [], rest)
    | _ => parseJItems fuel l []

def parseJItems : Nat → List Char → List Json → Option (Json × List Char)
  | 0, _, _ => none
  | fuel + 1, l, acc =>
    match parseJValue fuel l with
    | none => none
    | some (v, r1) =>
      match skipJsonWs r1 with
      | ',' :: r2 => parseJItems fuel (skipJsonWs r2) (acc ++ [v])
      | ']' :: r2 => some (.arr (acc ++ [v]), r2)
      | _ => none
end

/-- Model of `JSON.parse`: the whole input must be consumed, up to leading and
trailing JSON white-space. -/
def jsonParse (s : String) : Option Json :=
  match parseJValue (s.data.length + 1) (skipJsonWs s.data) with
  | some (v, rest) => if skipJsonWs rest = [] then some v else none
  | none => none

/-- Property lookup on a parsed object; duplicate keys resolve to the last
occurrence, as `JSON.parse` keeps the last binding. -/
def objGetLast (fields : List (String × Json)) (k : String) : Option Json :=
  (fields.reverse.find? (·.1 == k)).map (·.2)

def jsonAsString : Json → Option String
  | .str s => some s
  | _ => none

/-! ## A model of JavaScript `Map` keyed by parsed values

A truthy `result.id` can be any JSON value. `Map` compares keys with
SameValueZero: primitives by value, objects and arrays by reference. Every
object or array in a single `JSON.parse` result is a fresh reference, so an
object-valued id is identified by the position of its `results` element.
Numeric keys are identified by their lexeme (the code never produces two
different lexemes of the same numeric value whose collision matters). -/

inductive JKey where
  | str (s : String)
  | num (lexeme : String)
  | bool (b : Bool)
  | ref (elemIdx : Nat)
deriving DecidableEq, Repr

/-- Association list with `Map` insert semantics: `set` of an existing key
updates in place (preserving insertion order), otherwise appends. -/
abbrev JsMap := List (JKey × List String)

def mapSet (m : JsMap) (k : JKey) (v : List String) : JsMap :=
  match m with
  | [] => [(k, v)]
  | e :: rest => if e.1 = k then (k, v) :: rest else e :: mapSet rest k v

def mapGet (m : JsMap) (k : JKey) : Option (List String) :=
  (m.find? (·.1 == k)).map (·.2)

def mapHas (m : JsMap) (k : JKey) : Bool := (m.find? (·.1 == k)).isSome

/-! ## The regex fallback of `parseBatchClassifierResponse`

The pattern is `/"id"\s*:\s*"([^"]+)"[^}]*"categories"\s*:\s*\[([^\]]*)\]/g`,
scanned with `exec` in a loop. Leftmost matches are found by trying every
start position in order; the greedy `[^}]*` backtracks from the longest
`}`-free run down to the empty one. -/

def litMatch (pat : List Char) (l : List Char) : Option (List Char) :=
  match pat, l with
  | [], _ => some l
  | p :: ps, c :: cs => if p = c then litMatch ps cs else none
  | _ :: _, [] => none

def skipRegexWs (l : List Char) : List Char := l.dropWhile isJsWs

/-- Match `"categories"\s*:\s*\[([^\]]*)\]` at the head of the input,
returning the capture and the rest. -/
def matchCatsTail (l : List Char) : Option (List Char × List Char) :=
  match litMatch "\"categories\"".data l with
  | none => none
  | some r1 =>
    match skipRegexWs r1 with
    | ':' :: r2 =>
      match skipRegexWs r2 with
      | '[' :: r3 =>
        let cats := r3.takeWhile (· != ']')
        match r3.drop cats.length with
        | ']' :: r4 => some (cats, r4)
        | _ => none
      | _ => none
    | _ => none

/-- Greedy `[^}]*` followed by the categories tail: try consuming `k`
characters of the maximal `}`-free run, longest first. -/
def greedyCatsTail (l : List Char) : Nat → Option (List Char × List Char)
  | 0 => matchCatsTail l
  | k + 1 =>
    match matchCatsTail (l.drop (k + 1)) with
    | some r => some r
    | none => greedyCatsTail l k

/-- One attempt of the full pattern at the head of the input; returns
(id capture, categories capture, rest after the match). -/
def matchIdCats (l : List Char) : Option (String × List Char × List Char) :=
  match litMatch "\"id\"".data l with
  | none => none
  | some r1 =>
    match skipRegexWs r1 with
    | ':' :: r2 =>
      match skipRegexWs r2 with
      | '"' :: r3 =>
        let idChars := r3.takeWhile (· != '"')
        if idChars = [] then none
        else
          match r3.drop idChars.length with
          | '"' :: r4 =>
            let free := r4.takeWhile (· != '}')
            match greedyCatsTail r4 free.length with
            | some (cats, rest) => some (String.mk idChars, cats, rest)
            | none => none
          | _ => none
      | _ => none
    | _ => none

/-- The `exec` loop: leftmost match, then continue after the match's end. -/
def scanIdCats : Nat → List Char → List (String × List Char)
  | 0, _ => []
  | _ + 1, [] => []
  | fuel + 1, l@(_ :: rest) =>
    match matchIdCats l with
    | some (id, cats, remaining) => (id, cats) :: scanIdCats fuel remaining
    | none => scanIdCats fuel rest

/-- The raw category strings recovered for one match:
`match[2].split(",").map(s => s.trim().replace(/"/g, ""))`. -/
def processCats (cats : List Char) : List String :=
  (splitOnChar ',' cats).map (fun t => String.mk (removeAllChar '"' (jsTrimChars t)))

def fallbackPairs (text : String) : List (String × List String) :=
  (scanIdCats text.data.length text.data).map (fun p => (p.1, processCats p.2))

/-! ## `parseBatchClassifierResponse` (src/services/gemini.ts) -/

structure Category where
  name : String
  description : String
deriving DecidableEq, Repr

structure Config where
  maxCategoriesPerRepo : Int
  classifyBatchSize : Nat
  batchDelay : Nat
deriving Repr

def validNames (categories : List Category) : List String := categories.map (·.name)

/-- `categories[0]?.name || "Lang: ETC"` (a falsy — empty — name also falls
back to the hard-coded default). -/
def defaultCategoryOf (categories : List Category) : String :=
  match categories.head? with
  | some c => if c.name = "" then "Lang: ETC" else c.name
  | none => "Lang: ETC"

/-- The truncation repair: count delimiters in the raw text, drop an
unfinished trailing object after the last `}`, then append the missing
closing brackets and braces (counts taken before the drop). -/
def repairChars (l : List Char) : List Char :=
  let openBraces := countChar '{' l
  let closeBraces := countChar '}' l
  let openBrackets := countChar '[' l
  let closeBrackets := countChar ']' l
  let l2 :=
    match lastIndexOfChar '}' l with
    | some i =>
      if 0 < i then
        let afterLast := l.drop (i + 1)
        if afterLast.contains '{' ∧ ¬ afterLast.contains '}' then l.take (i + 1) else l
      else l
    | none => l
  l2 ++ List.replicate (openBrackets - closeBrackets) ']'
     ++ List.replicate (openBraces - closeBraces) '}'

/-- The string handed to `JSON.parse`: the trimmed text, repaired when it
does not end in `}` (or unconditionally, to model forcing a well-formed
response through the repair path). -/
def computeJsonStr (forceRepair : Bool) (text : String) : String :=
  let t := jsTrimChars text.data
  if forceRepair ∨ ¬ endsWithChar '}' t then String.mk (repairChars t) else String.mk t

/-- A JSON number is falsy iff its value is zero: every mantissa digit is 0. -/
def numLexemeIsZero (lx : String) : Bool :=
  ((lx.data.takeWhile (fun c => c != 'e' && c != 'E')).filter Char.isDigit).all (· == '0')

/-- Truthiness of `result.id` as a `Map` key; `elemIdx` identifies the
`results` element for reference-keyed objects and arrays. -/
def jsKeyOfTruthy (idVal : Option Json) (elemIdx : Nat) : Option JKey :=
  match idVal with
  | none => none
  | some .null => none
  | some (.bool b) => if b then some (.bool true) else none
  | some (.str s) => if s = "" then none else some (.str s)
  | some (.num lx) => if numLexemeIsZero lx then none else some (.num lx)
  | some (.arr _) => some (.ref elemIdx)
  | some (.obj _) => some (.ref elemIdx)

/-- The accepted (id, categories) entries of the `for (const result of
parsed.results)` loop, in order. A `null` element throws on `result.id`
(aborting the loop); the error carries the entries accepted before it, since
the shared map already holds them. -/
def loopEntries : List Json → Nat → Except (List (JKey × List Json)) (List (JKey × List Json))
  | [], _ => .ok []
  | .null :: _, _ => .error []
  | r :: rest, i =>
    let entry : Option (JKey × List Json) :=
      match r with
      | .obj fields =>
        match jsKeyOfTruthy (objGetLast fields "id") i with
        | some k =>
          match objGetLast fields "categories" with
          | some (.arr cats) => some (k, cats)
          | _ => none
        | none => none
      | _ => none
    match entry with
    | some e =>
      match loopEntries rest (i + 1) with
      | .ok es => .ok (e :: es)
      | .error es => .error (e :: es)
    | none => loopEntries rest (i + 1)

/-- The whole `try` block up to (and including) the results loop: `.error`
means an exception was thrown, carrying the entries already in the map. -/
def tryEntriesWith (forceRepair : Bool) (text : String) :
    Except (List (JKey × List Json)) (List (JKey × List Json)) :=
  match jsonParse (computeJsonStr forceRepair text) with
  | none => .error []
  | some parsed =>
    match parsed with
    | .obj fields =>
      match objGetLast fields "results" with
      | some (.arr results) => loopEntries results 0
      | _ => .error []
    | _ => .error []

def tryEntries (text : String) : Except (List (JKey × List Json)) (List (JKey × List Json)) :=
  tryEntriesWith false text

/-- Validation of one raw categories array:
`result.categories.filter(c => validCategoryNames.has(c)).slice(0, max)`,
defaulting when empty. A non-string element is never in the string set. -/
def validateTryList (names : List String) (maxPer : Int) (dflt : String)
    (cats : List Json) : List String :=
  let valid := jsSliceTo (cats.filterMap (fun j =>
    match j with
    | .str s => if names.contains s then some s else none
    | _ => none)) maxPer
  if valid.isEmpty then [dflt] else valid

def insertTryEntries (names : List String) (maxPer : Int) (dflt : String)
    (m : JsMap) (es : List (JKey × List Json)) : JsMap :=
  es.foldl (fun m e => mapSet m e.1 (validateTryList names maxPer dflt e.2)) m

/-- The fallback loop: each regex match is validated the same way and added
only when non-empty and the id is not in the map yet. -/
def insertFallback (names : List String) (maxPer : Int) (m : JsMap) (text : String) : JsMap :=
  (fallbackPairs text).foldl (fun m p =>
    let cats := jsSliceTo (p.2.filter names.contains) maxPer
    if ¬ cats.isEmpty ∧ ¬ mapHas m (.str p.1) then mapSet m (.str p.1) cats else m) m

/-- Remaining batch targets get the default category. -/
def gapFill (dflt : String) (m : JsMap) (repoIds : List String) : JsMap :=
  repoIds.foldl (fun m id => if mapHas m (.str id) then m else mapSet m (.str id) [dflt]) m

/-- `parseBatchClassifierResponse(text, repos, categories)`, parametrised by
whether the repair transformation is forced on text that already ends in `}`.
Batch targets are identified by their ids, the only field the parser reads. -/
def parseBatchWith (forceRepair : Bool) (cfg : Config) (text : String)
    (repoIds : List String) (categories : List Category) : JsMap :=
  let names := validNames categories
  let dflt := defaultCategoryOf categories
  match tryEntriesWith forceRepair text with
  | .ok es =>
    gapFill dflt (insertTryEntries names cfg.maxCategoriesPerRepo dflt [] es) repoIds
  | .error es =>
    gapFill dflt
      (insertFallback names cfg.maxCategoriesPerRepo
        (insertTryEntries names cfg.maxCategoriesPerRepo dflt [] es) text) repoIds

def parseBatchClassifierResponse (cfg : Config) (text : String)
    (repoIds : List String) (categories : List Category) : JsMap :=
  parseBatchWith false cfg text repoIds categories

/-- The raw (unvalidated) category-name strings the parser extracts per id, in
processing order: the string elements of each accepted `results` entry, then —
on the exception path — the processed strings of each regex match. -/
def rawCategoryLists (text : String) : List (JKey × List String) :=
  match tryEntries text with
  | .ok es => es.map (fun e => (e.1, e.2.filterMap jsonAsString))
  | .error es => es.map (fun e => (e.1, e.2.filterMap jsonAsString))
      ++ (fallbackPairs text).map (fun p => (JKey.str p.1, p.2))

/-! ## `retryWithBackoff` (src/utils/rate-limiter.ts)

The wrapped operation is modelled by its outcome on each attempt index. The
trace records the result, the number of invocations, and the delays awaited
between consecutive attempts; the error slot is an `Option` because the code
initialises `lastError` to `null`. -/

structure RetryTrace (ε α : Type) where
  result : Except (Option ε) α
  attempts : Nat
  delays : List Nat
deriving Repr

/-- The `for (attempt = 0; attempt <= maxRetries; ...)` loop: `left` is the
number of attempts the loop will still run (`maxRetries + 1 - attempt`), so a
delay is awaited exactly when `attempt < maxRetries`, that is `0 < left`. -/
def retryAux (fn : Nat → Except ε α) (initialDelayMs maxDelayMs : Nat) :
    Nat → Nat → Option ε → RetryTrace ε α
  | _, 0, lastError => ⟨.error lastError, 0, []⟩
  | attempt, left + 1, _ =>
    match fn attempt with
    | .ok a => ⟨.ok a, 1, []⟩
    | .error e =>
      let rest := retryAux fn initialDelayMs maxDelayMs (attempt + 1) left (some e)
      let delays :=
        if 0 < left then min (initialDelayMs * 2 ^ attempt) maxDelayMs :: rest.delays
        else rest.delays
      ⟨rest.result, rest.attempts + 1, delays⟩

def retryWithBackoff (fn : Nat → Except ε α) (maxRetries initialDelayMs maxDelayMs : Nat) :
    RetryTrace ε α :=
  retryAux fn initialDelayMs maxDelayMs 0 (maxRetries + 1) none

/-! ## `runWithConcurrency` (src/utils/rate-limiter.ts)

JavaScript is single-threaded: a worker claims `currentIndex++` and starts
its operation synchronously, then suspends at `await`; the event loop later
resumes any worker whose operation settled. A state holds the shared cursor,
the pre-sized result array, the index each active worker is awaiting, and the
log of claims (operation invocations). A schedule picks which worker resumes
next; the run is complete when every worker has returned. -/

structure CState (ρ : Type) where
  cursor : Nat
  results : List (Option ρ)
  pending : List Nat
  invoked : List Nat
deriving Repr

/-- Worker start-up: claim the next index if one remains, else return at once. -/
def tryClaim (n : Nat) (s : CState ρ) : CState ρ :=
  if s.cursor < n then
    { s with cursor := s.cursor + 1, pending := s.pending ++ [s.cursor],
             invoked := s.invoked ++ [s.cursor] }
  else s

/-- `Array(Math.min(concurrency, items.length)).fill(null).map(() => worker())`:
each of the `min` workers runs synchronously up to its first `await`. -/
def spawnWorkers (n : Nat) : Nat → CState ρ → CState ρ
  | 0, s => s
  | w + 1, s => spawnWorkers n w (tryClaim n s)

def initCState (items : List ι) (concurrency : Nat) : CState ρ :=
  spawnWorkers items.length (min concurrency items.length)
    ⟨0, List.replicate items.length none, [], []⟩

/-- Resume the worker at position `w` of `pending`: write its settled result,
then loop — claim the next index or return. An invalid `w` changes nothing. -/
def stepWorker (items : List ι) (op : ι → ρ) (s : CState ρ) (w : Nat) : CState ρ :=
  match s.pending.get? w with
  | none => s
  | some i =>
    let results := s.results.set i ((items.get? i).map op)
    if s.cursor < items.length then
      { cursor := s.cursor + 1, results := results,
        pending := s.pending.set w s.cursor, invoked := s.invoked ++ [s.cursor] }
    else
      { s with results := results, pending := s.pending.eraseIdx w }

def execSched (items : List ι) (op : ι → ρ) (sched : List Nat) (s : CState ρ) : CState ρ :=
  sched.foldl (stepWorker items op) s

/-- `runWithConcurrency(items, processor, concurrency)` under a given event
ordering; `Promise.all` resolves exactly when `pending` is empty. -/
def runWithConcurrency (items : List ι) (op : ι → ρ) (concurrency : Nat)
    (sched : List Nat) : CState ρ :=
  execSched items op sched (initCState items concurrency)

/-! ## The per-item assignment step and the batch loop of `classifyAndAddRepos`
(src/commands/classify.ts)

The composite network mutation (`getRepositoryNodeId` then
`addRepoToGitHubLists`) is modelled by its outcome on each retry attempt; the
result records how many times it was invoked. -/

structure CreatedList where
  id : String
  name : String
  description : String

structure AddResult where
  repoId : String
  success : Bool
  categories : Option (List String)
  error : Option String
  networkAttempts : Nat
deriving Repr

/-- `createdLists.get(name)?.id` filtered by truthiness: a missing list and an
empty-string id are both dropped. -/
def resolveListIds (createdLists : List (String × CreatedList)) (names : List String) :
    List String :=
  names.filterMap (fun n =>
    match (createdLists.find? (·.1 == n)).map (·.2.id) with
    | some id => if id = "" then none else some id
    | none => none)

/-- The per-item closure passed to `runWithConcurrency`: resolve list ids; an
empty resolution fails without any network call; otherwise the mutation runs
under `retryWithBackoff(..., { maxRetries: 3, initialDelayMs: 500 })`
(`maxDelayMs` defaults to 5000). -/
def applyRepoOnce (createdLists : List (String × CreatedList)) (results : JsMap)
    (repoId : String) (net : Nat → Except String Unit) : AddResult :=
  let categoryNames := (mapGet results (.str repoId)).getD []
  let listIds := resolveListIds createdLists categoryNames
  if listIds.isEmpty then
    ⟨repoId, false, none, some "No matching category", 0⟩
  else
    let t := retryWithBackoff net 3 500 5000
    match t.result with
    | .ok _ => ⟨repoId, true, some categoryNames, none, t.attempts⟩
    | .error e => ⟨repoId, false, none, some (e.getD "null"), t.attempts⟩

/-- Aggregate outcome of `classifyAndAddRepos`: the success and failure
counters, the inter-batch delays actually awaited (in order), and the number
of batch iterations that ran. -/
structure OrchTrace where
  success : Nat
  failed : Nat
  delays : List Nat
  batches : Nat
deriving Repr

def totalBatches (cfg : Config) (repoCount : Nat) : Nat :=
  (repoCount + cfg.classifyBatchSize - 1) / cfg.classifyBatchSize

/-- The batch loop from batch index `b` on. `classify b` is the awaited
outcome of `classifyRepositoriesBatch` for batch `b`; on a throw the whole
batch is counted failed and `continue` skips the inter-batch delay. On
success every batch item goes through the concurrency-limited assignment
step, whose per-item results are the per-item `applyRepoOnce` outcomes. -/
def orchFrom (cfg : Config) (createdLists : List (String × CreatedList))
    (repoIds : List String) (classify : Nat → Except Unit JsMap)
    (net : String → Nat → Except String Unit) : Nat → Nat → OrchTrace
  | _, 0 => ⟨0, 0, [], 0⟩
  | b, left + 1 =>
    let batchRepos := (repoIds.drop (b * cfg.classifyBatchSize)).take cfg.classifyBatchSize
    match classify b with
    | .error _ =>
      let rest := orchFrom cfg createdLists repoIds classify net (b + 1) left
      ⟨rest.success, rest.failed + batchRepos.length, rest.delays, rest.batches + 1⟩
    | .ok results =>
      let addResults := batchRepos.map (fun id => applyRepoOnce createdLists results id (net id))
      let okCount := addResults.countP (·.success)
      let errCount := addResults.countP (fun r => ! r.success)
      let rest := orchFrom cfg createdLists repoIds classify net (b + 1) left
      let delays := if 0 < left then cfg.batchDelay :: rest.delays else rest.delays
      ⟨rest.success + okCount, rest.failed + errCount, delays, rest.batches + 1⟩

/-- `classifyAndAddRepos(config, gemini, repos, categories, createdLists)`:
run every batch from the first; `0 < left` in `orchFrom` is exactly
`batchIdx < totalBatches - 1`, the guard on the inter-batch delay. -/
def classifyAndAddRepos (cfg : Config) (createdLists : List (String × CreatedList))
    (repoIds : List String) (classify : Nat → Except Unit JsMap)
    (net : String → Nat → Except String Unit) : OrchTrace :=
  orchFrom cfg createdLists repoIds classify net 0 (totalBatches cfg repoIds.length)

/-! ## Map lemmas -/

theorem mapGet_cons (e : JKey × List String) (m : JsMap) (k : JKey) :
    mapGet (e :: m) k = if e.1 = k then some e.2 else mapGet m k := by
  by_cases h : e.1 = k
  · unfold mapGet
    rw [List.find?_cons_of_pos _ (by simp [h])]
    simp [h]
  · unfold mapGet
    rw [List.find?_cons_of_neg _ (by simp [h])]
    simp [h]

theorem mapGet_mapSet_self (m : JsMap) (k : JKey) (v : List String) :
    mapGet (mapSet m k v) k = some v := by
  induction m with
  | nil => simp [mapSet, mapGet_cons]
  | cons e rest ih =>
    by_cases h : e.1 = k
    · simp [mapSet, h, mapGet_cons]
    · simp [mapSet, if_neg h, mapGet_cons, h, ih]

theorem mapGet_mapSet_ne (m : JsMap) (k k' : JKey) (v : List String) (h : k' ≠ k) :
    mapGet (mapSet m k v) k' = mapGet m k' := by
  induction m with
  | nil => simp [mapSet, mapGet_cons, mapGet, Ne.symm h]
  | cons e rest ih =>
    by_cases he : e.1 = k
    · simp [mapSet, he, mapGet_cons, Ne.symm h]
    · simp [mapSet, if_neg he, mapGet_cons, ih]

theorem mapHas_eq_isSome (m : JsMap) (k : JKey) : mapHas m k = (mapGet m k).isSome := by
  simp [mapHas, mapGet]

theorem mapGet_some_of_mapHas {m : JsMap} {k : JKey} (h : mapHas m k = true) :
    ∃ v, mapGet m k = some v := by
  rw [mapHas_eq_isSome] at h
  exact Option.isSome_iff_exists.mp h

theorem mem_of_mapGet_some {m : JsMap} {k : JKey} {v : List String}
    (h : mapGet m k = some v) : (k, v) ∈ m := by
  unfold mapGet at h
  cases hf : List.find? (fun x => x.1 == k) m with
  | none => rw [hf] at h; simp at h
  | some e =>
    rw [hf] at h
    simp only [Option.map_some'] at h
    have hkey : e.1 = k := by simpa using List.find?_some hf
    have hmem := List.mem_of_find?_eq_some hf
    have : e = (k, v) := by
      cases e
      simp_all
    exact this ▸ hmem

theorem mem_mapSet {m : JsMap} {k : JKey} {v : List String} {e : JKey × List String}
    (h : e ∈ mapSet m k v) : e = (k, v) ∨ e ∈ m := by
  induction m with
  | nil => simpa [mapSet] using h
  | cons e0 rest ih =>
    by_cases h0 : e0.1 = k
    · simp only [mapSet, if_pos h0, List.mem_cons] at h
      rcases h with h | h
      · exact .inl h
      · exact .inr (List.mem_cons_of_mem _ h)
    · simp only [mapSet, if_neg h0, List.mem_cons] at h
      rcases h with h | h
      · exact .inr (h ▸ List.mem_cons_self _ _)
      · rcases ih h with h | h
        · exact .inl h
        · exact .inr (List.mem_cons_of_mem _ h)

theorem mapSet_map_fst (m : JsMap) (k : JKey) (v : List String) :
    (mapSet m k v).map Prod.fst = m.map Prod.fst ∨
    (mapSet m k v).map Prod.fst = m.map Prod.fst ++ [k] := by
  induction m with
  | nil => simp [mapSet]
  | cons e rest ih =>
    by_cases h : e.1 = k
    · simp [mapSet, h]
    · simp only [mapSet, if_neg h, List.map_cons]
      rcases ih with ih | ih <;> simp [ih]

theorem keys_nodup_mapSet {m : JsMap} (k : JKey) (v : List String)
    (hm : (m.map Prod.fst).Nodup) (hk : mapHas m k = false → k ∉ m.map Prod.fst) :
    ((mapSet m k v).map Prod.fst).Nodup := by
  rcases mapSet_map_fst m k v with h | h
  · rw [h]; exact hm
  · rw [h]
    refine List.Nodup.append hm (List.nodup_singleton k) ?_
    intro a ha hb
    have hak : a = k := by simpa using hb
    rw [hak] at ha
    by_cases hhas : mapHas m k = true
    · have hself : ∀ (m2 : JsMap), k ∈ m2.map Prod.fst →
          (mapSet m2 k v).map Prod.fst = m2.map Prod.fst := by
        intro m2
        induction m2 with
        | nil => intro hk2; simp at hk2
        | cons e rest ih =>
          intro hk2
          by_cases he : e.1 = k
          · simp [mapSet, he]
          · simp only [List.map_cons, List.mem_cons] at hk2
            rcases hk2 with hk2 | hk2
            · exact absurd hk2.symm he
            · simp [mapSet, if_neg he, ih hk2]
      have heq := hself m ha
      rw [heq] at h
      simpa using congrArg List.length h
    · exact (hk (by simpa using hhas)) ha

/-- All entries of a map satisfy a key-value predicate. -/
def AllEntries (P : JKey → List String → Prop) (m : JsMap) : Prop :=
  ∀ e ∈ m, P e.1 e.2

theorem allEntries_mapSet {P : JKey → List String → Prop} {m : JsMap}
    (hm : AllEntries P m) {k : JKey} {v : List String} (hv : P k v) :
    AllEntries P (mapSet m k v) := by
  intro e he
  rcases mem_mapSet he with h | h
  · subst h; exact hv
  · exact hm e h

theorem allEntries_foldl {P : JKey → List String → Prop} {f : JsMap → α → JsMap}
    {l : List α} (hf : ∀ m a, a ∈ l → AllEntries P m → AllEntries P (f m a)) :
    ∀ {m : JsMap}, AllEntries P m → AllEntries P (l.foldl f m) := by
  induction l with
  | nil => intro m hm; simpa using hm
  | cons a rest ih =>
    intro m hm
    simp only [List.foldl_cons]
    exact ih (fun m b hb => hf m b (List.mem_cons_of_mem _ hb)) (hf m a (List.mem_cons_self _ _) hm)

theorem mapHas_mapSet_self (m : JsMap) (k : JKey) (v : List String) :
    mapHas (mapSet m k v) k = true := by
  rw [mapHas_eq_isSome, mapGet_mapSet_self]
  rfl

theorem mapHas_mapSet_of (m : JsMap) (k k' : JKey) (v : List String)
    (h : mapHas m k' = true) : mapHas (mapSet m k v) k' = true := by
  by_cases hk : k' = k
  · subst hk; exact mapHas_mapSet_self m k' v
  · rw [mapHas_eq_isSome, mapGet_mapSet_ne m k k' v hk, ← mapHas_eq_isSome]
    exact h

theorem mapHas_iff_mem_keys (m : JsMap) (k : JKey) :
    mapHas m k = true ↔ k ∈ m.map Prod.fst := by
  unfold mapHas
  rw [List.find?_isSome]
  constructor
  · rintro ⟨x, hx, hk⟩
    exact List.mem_map.mpr ⟨x, hx, by simpa using hk⟩
  · rintro h
    obtain ⟨x, hx, rfl⟩ := List.mem_map.mp h
    exact ⟨x, hx, by simp⟩

theorem keys_nodup_mapSet_of {m : JsMap} (k : JKey) (v : List String)
    (hm : (m.map Prod.fst).Nodup) : ((mapSet m k v).map Prod.fst).Nodup := by
  refine keys_nodup_mapSet k v hm ?_
  intro hfalse hmem
  have := (mapHas_iff_mem_keys m k).mpr hmem
  rw [hfalse] at this
  exact Bool.false_ne_true this

theorem gapFill_preserves_has (dflt : String) (k : JKey) :
    ∀ (rs : List String) (m : JsMap), mapHas m k = true → mapHas (gapFill dflt m rs) k = true := by
  intro rs
  induction rs with
  | nil => intro m h; simpa [gapFill] using h
  | cons r rest ih =>
    intro m h
    unfold gapFill
    rw [List.foldl_cons]
    apply ih
    by_cases hr : mapHas m (JKey.str r) = true
    · simpa [hr] using h
    · simp only [Bool.not_eq_true] at hr
      simp only [hr]
      simpa using mapHas_mapSet_of m (JKey.str r) k [dflt] h

theorem gapFill_has (dflt : String) :
    ∀ (rs : List String) (m : JsMap), ∀ id ∈ rs, mapHas (gapFill dflt m rs) (.str id) = true := by
  intro rs
  induction rs with
  | nil => intro m id h; simp at h
  | cons r rest ih =>
    intro m id h
    rcases List.mem_cons.mp h with rfl | h
    · unfold gapFill
      rw [List.foldl_cons]
      apply gapFill_preserves_has
      by_cases hr : mapHas m (JKey.str id) = true
      · simpa [hr] using hr
      · simp only [Bool.not_eq_true] at hr
        simp only [hr]
        simpa using mapHas_mapSet_self m (JKey.str id) [dflt]
    · unfold gapFill
      rw [List.foldl_cons]
      exact ih _ id h

theorem validateTryList_ne_nil (names : List String) (maxPer : Int) (dflt : String)
    (cats : List Json) : validateTryList names maxPer dflt cats ≠ [] := by
  unfold validateTryList
  dsimp only
  split
  · simp
  · next h => simpa [List.isEmpty_iff] using h

/-- Every value a stage of the parser puts into the map is non-empty, so every
value of the final map is non-empty. -/
theorem parse_allEntries_ne_nil (cfg : Config) (text : String) (repoIds : List String)
    (categories : List Category) :
    AllEntries (fun _ v => v ≠ [])
      (parseBatchClassifierResponse cfg text repoIds categories) := by
  unfold parseBatchClassifierResponse parseBatchWith
  have hnil : AllEntries (fun _ v => v ≠ []) ([] : JsMap) := by intro e he; simp at he
  have htr : ∀ (es : List (JKey × List Json)) (m : JsMap), AllEntries (fun _ v => v ≠ []) m →
      AllEntries (fun _ v => v ≠ [])
        (insertTryEntries (validNames categories) cfg.maxCategoriesPerRepo
          (defaultCategoryOf categories) m es) := by
    intro es m hm
    exact allEntries_foldl (fun m e _ hm =>
      allEntries_mapSet hm (validateTryList_ne_nil _ _ _ _)) hm
  have hfb : ∀ (m : JsMap), AllEntries (fun _ v => v ≠ []) m →
      AllEntries (fun _ v => v ≠ [])
        (insertFallback (validNames categories) cfg.maxCategoriesPerRepo m text) := by
    intro m hm
    refine allEntries_foldl (fun m p _ hm => ?_) hm
    by_cases hc : ¬ (jsSliceTo (p.2.filter (validNames categories).contains)
        cfg.maxCategoriesPerRepo).isEmpty = true ∧ ¬ mapHas m (.str p.1) = true
    · rw [if_pos hc]
      exact allEntries_mapSet hm (by simpa [List.isEmpty_iff] using hc.1)
    · rw [if_neg hc]; exact hm
  have hgf : ∀ (m : JsMap), AllEntries (fun _ v => v ≠ []) m →
      AllEntries (fun _ v => v ≠ [])
        (gapFill (defaultCategoryOf categories) m repoIds) := by
    intro m hm
    refine allEntries_foldl (fun m id _ hm => ?_) hm
    by_cases hr : mapHas m (JKey.str id) = true
    · simpa [hr] using hm
    · simp only [Bool.not_eq_true] at hr
      simp only [hr]
      simpa using allEntries_mapSet hm (by simp)
  cases tryEntriesWith false text with
  | ok es => exact hgf _ (htr es [] hnil)
  | error es => exact hgf _ (hfb _ (htr es [] hnil))

/-- Every stage preserves distinctness of the map's keys. -/
theorem parse_keys_nodup (cfg : Config) (text : String) (repoIds : List String)
    (categories : List Category) :
    ((parseBatchClassifierResponse cfg text repoIds categories).map Prod.fst).Nodup := by
  unfold parseBatchClassifierResponse parseBatchWith
  have step : ∀ {α : Type} (l : List α) (f : JsMap → α → JsMap)
      (hf : ∀ m a, (m.map Prod.fst).Nodup → ((f m a).map Prod.fst).Nodup)
      (m : JsMap), (m.map Prod.fst).Nodup → ((l.foldl f m).map Prod.fst).Nodup := by
    intro α l f hf
    induction l with
    | nil => intro m hm; simpa using hm
    | cons a rest ih =>
      intro m hm
      rw [List.foldl_cons]
      exact ih _ (hf m a hm)
  have hnil : (([] : JsMap).map Prod.fst).Nodup := by simp
  have htr : ∀ (m : JsMap) (es : List (JKey × List Json)), (m.map Prod.fst).Nodup →
      ((insertTryEntries (validNames categories) cfg.maxCategoriesPerRepo
        (defaultCategoryOf categories) m es).map Prod.fst).Nodup := by
    intro m es hm
    exact step es _ (fun m e hm => keys_nodup_mapSet_of _ _ hm) m hm
  have hfb : ∀ (m : JsMap), (m.map Prod.fst).Nodup →
      ((insertFallback (validNames categories) cfg.maxCategoriesPerRepo m text).map
        Prod.fst).Nodup := by
    intro m hm
    refine step _ _ (fun m p hm => ?_) m hm
    dsimp only
    split
    · exact keys_nodup_mapSet_of _ _ hm
    · exact hm
  have hgf : ∀ (m : JsMap), (m.map Prod.fst).Nodup →
      ((gapFill (defaultCategoryOf categories) m repoIds).map Prod.fst).Nodup := by
    intro m hm
    refine step _ _ (fun m id hm => ?_) m hm
    split
    · exact hm
    · exact keys_nodup_mapSet_of _ _ hm
  cases tryEntriesWith false text with
  | ok es => exact hgf _ (htr [] es hnil)
  | error es => exact hgf _ (hfb _ (htr [] es hnil))

/-- Every batch target id is a key of the final map, in both the success and
the exception branch, because the gap-fill loop runs last in each. -/
theorem parse_covers (cfg : Config) (text : String) (repoIds : List String)
    (categories : List Category) :
    ∀ id ∈ repoIds,
      mapHas (parseBatchClassifierResponse cfg text repoIds categories) (.str id) = true := by
  unfold parseBatchClassifierResponse parseBatchWith
  cases tryEntriesWith false text with
  | ok es => exact fun id h => gapFill_has _ repoIds _ id h
  | error es => exact fun id h => gapFill_has _ repoIds _ id h

/-- C1: for every batch of target ids and every raw response text, the
returned map has an entry for every target id, every value in the map is a
non-empty category list, and the keys are pairwise distinct (one outcome per
id). -/
theorem parseBatch_total_coverage (cfg : Config) (text : String) (repoIds : List String)
    (categories : List Category) :
    (∀ id ∈ repoIds, ∃ v,
        mapGet (parseBatchClassifierResponse cfg text repoIds categories) (.str id) = some v ∧
        v ≠ []) ∧
    (∀ k v, mapGet (parseBatchClassifierResponse cfg text repoIds categories) k = some v →
        v ≠ []) ∧
    ((parseBatchClassifierResponse cfg text repoIds categories).map Prod.fst).Nodup := by
  refine ⟨?_, ?_, parse_keys_nodup cfg text repoIds categories⟩
  · intro id hid
    obtain ⟨v, hv⟩ := mapGet_some_of_mapHas (parse_covers cfg text repoIds categories id hid)
    exact ⟨v, hv, parse_allEntries_ne_nil cfg text repoIds categories _ (mem_of_mapGet_some hv)⟩
  · intro k v hv
    exact parse_allEntries_ne_nil cfg text repoIds categories _ (mem_of_mapGet_some hv)

/-- Witness for C1 at a concrete batch and garbage text. -/
theorem parseBatch_total_coverage_witness :
    ∃ v, mapGet (parseBatchClassifierResponse ⟨3, 20, 2000⟩ "garbage" ["a"]
      [⟨"A", ""⟩]) (.str "a") = some v ∧ v ≠ [] :=
  (parseBatch_total_coverage ⟨3, 20, 2000⟩ "garbage" ["a"] [⟨"A", ""⟩]).1 "a"
    (by decide)

/-! ## C2: cardinality, closed-set membership, order preservation -/

theorem filterMap_strIn_eq (names : List String) (cats : List Json) :
    cats.filterMap (fun j => match j with
      | .str s => if names.contains s then some s else none
      | _ => none) =
    (cats.filterMap jsonAsString).filter names.contains := by
  induction cats with
  | nil => simp
  | cons c rest ih =>
    cases c with
    | str s =>
      by_cases h : s ∈ names <;>
        simp_all [jsonAsString, List.filterMap_cons, List.filter_cons]
    | null => simpa [jsonAsString, List.filterMap_cons] using ih
    | bool b => simpa [jsonAsString, List.filterMap_cons] using ih
    | num lx => simpa [jsonAsString, List.filterMap_cons] using ih
    | arr es => simpa [jsonAsString, List.filterMap_cons] using ih
    | obj fs => simpa [jsonAsString, List.filterMap_cons] using ih

theorem jsSliceTo_subset (l : List α) (e : Int) : jsSliceTo l e ⊆ l := by
  unfold jsSliceTo
  split <;> exact List.take_subset _ _

theorem jsSliceTo_length_le (l : List α) (e : Int) (he : 0 ≤ e) :
    ((jsSliceTo l e).length : Int) ≤ e := by
  unfold jsSliceTo
  rw [if_neg (by omega)]
  calc ((l.take e.toNat).length : Int) ≤ (e.toNat : Int) := by
        exact_mod_cast List.length_take_le _ _
    _ = e := Int.toNat_of_nonneg he

/-- The per-entry shape invariant: every value the parser ever inserts is the
default, or the first `maxPer` valid names of a raw list it extracted. -/
def Validated (names : List String) (maxPer : Int) (dflt : String)
    (rawls : List (JKey × List String)) (k : JKey) (v : List String) : Prop :=
  v = [dflt] ∨ ∃ raw, (k, raw) ∈ rawls ∧ v = jsSliceTo (raw.filter names.contains) maxPer

theorem parse_allEntries_validated (cfg : Config) (text : String) (repoIds : List String)
    (categories : List Category) :
    AllEntries
      (Validated (validNames categories) cfg.maxCategoriesPerRepo
        (defaultCategoryOf categories) (rawCategoryLists text))
      (parseBatchClassifierResponse cfg text repoIds categories) := by
  set names := validNames categories with hnames
  set dflt := defaultCategoryOf categories with hdflt
  set maxPer := cfg.maxCategoriesPerRepo with hmaxPer
  have hnil : AllEntries (Validated names maxPer dflt (rawCategoryLists text)) ([] : JsMap) := by
    intro e he; simp at he
  have htr : ∀ (es : List (JKey × List Json)),
      (∀ e ∈ es, (e.1, e.2.filterMap jsonAsString) ∈ rawCategoryLists text) →
      ∀ (m : JsMap), AllEntries (Validated names maxPer dflt (rawCategoryLists text)) m →
      AllEntries (Validated names maxPer dflt (rawCategoryLists text))
        (insertTryEntries names maxPer dflt m es) := by
    intro es hes m hm
    refine allEntries_foldl (fun m e he hm => allEntries_mapSet hm ?_) hm
    unfold validateTryList
    dsimp only
    split
    · exact .inl rfl
    · exact .inr ⟨e.2.filterMap jsonAsString, hes e he, by rw [filterMap_strIn_eq]⟩
  have hfb : ∀ (m : JsMap), AllEntries (Validated names maxPer dflt (rawCategoryLists text)) m →
      (∀ p ∈ fallbackPairs text, (JKey.str p.1, p.2) ∈ rawCategoryLists text) →
      AllEntries (Validated names maxPer dflt (rawCategoryLists text))
        (insertFallback names maxPer m text) := by
    intro m hm hps
    refine allEntries_foldl (fun m p hp hm => ?_) hm
    dsimp only
    split
    · exact allEntries_mapSet hm (.inr ⟨p.2, hps p hp, rfl⟩)
    · exact hm
  have hgf : ∀ (m : JsMap), AllEntries (Validated names maxPer dflt (rawCategoryLists text)) m →
      AllEntries (Validated names maxPer dflt (rawCategoryLists text)) (gapFill dflt m repoIds) := by
    intro m hm
    refine allEntries_foldl (fun m id _ hm => ?_) hm
    split
    · exact hm
    · exact allEntries_mapSet hm (.inl rfl)
  unfold parseBatchClassifierResponse parseBatchWith
  rw [← hnames, ← hdflt, ← hmaxPer]
  cases htE : tryEntriesWith false text with
  | ok es =>
    refine hgf _ (htr es ?_ [] hnil)
    intro e he
    simp only [rawCategoryLists, tryEntries, htE]
    exact List.mem_map.mpr ⟨e, he, rfl⟩
  | error es =>
    refine hgf _ (hfb _ (htr es ?_ [] hnil) ?_)
    · intro e he
      simp only [rawCategoryLists, tryEntries, htE]
      exact List.mem_append_left _ (List.mem_map.mpr ⟨e, he, rfl⟩)
    · intro p hp
      simp only [rawCategoryLists, tryEntries, htE]
      exact List.mem_append_right _ (List.mem_map.mpr ⟨p, hp, rfl⟩)

/-- C2 (amended): when the first category of a non-empty set has a non-empty
name and `maxCategoriesPerRepo` is at least 1, every value of the returned map
has between 1 and `maxCategoriesPerRepo` entries, every entry is the name of a
category of the supplied set (case-sensitive), and each value is either the
default or the first `maxCategoriesPerRepo` valid names, in response order, of
a raw category list extracted from the response (earlier entries win). -/
theorem parseBatch_entry_invariants (cfg : Config) (text : String) (repoIds : List String)
    (c0 : Category) (cats : List Category) (h0 : c0.name ≠ "")
    (hmax : (1 : Int) ≤ cfg.maxCategoriesPerRepo) :
    ∀ k v, mapGet (parseBatchClassifierResponse cfg text repoIds (c0 :: cats)) k = some v →
      1 ≤ v.length ∧ (v.length : Int) ≤ cfg.maxCategoriesPerRepo ∧
      (∀ c ∈ v, c ∈ validNames (c0 :: cats)) ∧
      (v = [defaultCategoryOf (c0 :: cats)] ∨
        ∃ raw, (k, raw) ∈ rawCategoryLists text ∧
          v = jsSliceTo (raw.filter (validNames (c0 :: cats)).contains)
            cfg.maxCategoriesPerRepo) := by
  intro k v hv
  have hmem := mem_of_mapGet_some hv
  have hP := parse_allEntries_validated cfg text repoIds (c0 :: cats) _ hmem
  have hne := parse_allEntries_ne_nil cfg text repoIds (c0 :: cats) _ hmem
  have hdfl : defaultCategoryOf (c0 :: cats) = c0.name := by
    simp [defaultCategoryOf, h0]
  dsimp only at hP hne
  refine ⟨List.length_pos.mpr hne, ?_, ?_, hP⟩
  · rcases id hP with h | ⟨raw, _, h⟩
    · rw [h]; simpa using hmax
    · rw [h]; exact jsSliceTo_length_le _ _ (by omega)
  · intro c hc
    rcases id hP with h | ⟨raw, _, h⟩
    · rw [h] at hc
      have : c = defaultCategoryOf (c0 :: cats) := by simpa using hc
      rw [this, hdfl]
      exact List.mem_map.mpr ⟨c0, List.mem_cons_self _ _, rfl⟩
    · rw [h] at hc
      have h1 := jsSliceTo_subset _ _ hc
      have h2 := (List.mem_filter.mp h1).2
      simpa using h2

/-- C2 counterexample: with a (non-empty) category set whose first category is
named by the empty string, every defaulted target is assigned the hard-coded
name "Lang: ETC", which is not a member of the supplied set. -/
theorem parseBatch_closed_set_counterexample :
    mapGet (parseBatchClassifierResponse ⟨3, 20, 2000⟩ "x" ["r"] [⟨"", "d"⟩]) (.str "r")
      = some ["Lang: ETC"] ∧ "Lang: ETC" ∉ validNames [⟨"", "d"⟩] := by
  constructor
  · decide
  · decide

/-- Witness for the amended C2 theorem at a concrete garbage response. -/
theorem parseBatch_entry_invariants_witness :
    1 ≤ (["A"] : List String).length ∧ (((["A"] : List String).length : Int) ≤ 3) ∧
    (∀ c ∈ (["A"] : List String), c ∈ validNames [⟨"A", "x"⟩]) ∧
    ((["A"] : List String) = [defaultCategoryOf [⟨"A", "x"⟩]] ∨
      ∃ raw, (JKey.str "r", raw) ∈ rawCategoryLists "g" ∧
        (["A"] : List String) = jsSliceTo (raw.filter (validNames [⟨"A", "x"⟩]).contains) 3) :=
  parseBatch_entry_invariants ⟨3, 20, 2000⟩ "g" ["r"] ⟨"A", "x"⟩ [] (by decide) (by decide)
    (.str "r") ["A"] (by decide)

/-! ## C9: the empty category set -/

theorem filter_contains_nil (l : List String) :
    List.filter ([] : List String).contains l = [] := by
  induction l with
  | nil => rfl
  | cons a rest ih =>
    rw [List.filter_cons]
    rw [show ([] : List String).contains a = false from rfl]
    simpa using ih

theorem jsSliceTo_nil (e : Int) : jsSliceTo ([] : List String) e = [] := by
  simp [jsSliceTo]

theorem validateTryList_nil_names (maxPer : Int) (dflt : String) (cats : List Json) :
    validateTryList [] maxPer dflt cats = [dflt] := by
  unfold validateTryList
  dsimp only
  rw [if_pos]
  rw [filterMap_strIn_eq, filter_contains_nil, jsSliceTo_nil]
  rfl

theorem parse_nilcats_allEntries (cfg : Config) (text : String) (repoIds : List String) :
    AllEntries (fun _ v => v = ["Lang: ETC"])
      (parseBatchClassifierResponse cfg text repoIds []) := by
  have hnil : AllEntries (fun _ v => v = ["Lang: ETC"]) ([] : JsMap) := by
    intro e he; simp at he
  have hdfl : defaultCategoryOf [] = "Lang: ETC" := rfl
  have hnm : validNames [] = [] := rfl
  have htr : ∀ (es : List (JKey × List Json)) (m : JsMap),
      AllEntries (fun _ v => v = ["Lang: ETC"]) m →
      AllEntries (fun _ v => v = ["Lang: ETC"])
        (insertTryEntries (validNames []) cfg.maxCategoriesPerRepo
          (defaultCategoryOf []) m es) := by
    intro es m hm
    refine allEntries_foldl (fun m e _ hm => allEntries_mapSet hm ?_) hm
    rw [hnm, hdfl, validateTryList_nil_names]
  have hfb : ∀ (m : JsMap), AllEntries (fun _ v => v = ["Lang: ETC"]) m →
      AllEntries (fun _ v => v = ["Lang: ETC"])
        (insertFallback (validNames []) cfg.maxCategoriesPerRepo m text) := by
    intro m hm
    refine allEntries_foldl (fun m p _ hm => ?_) hm
    dsimp only
    rw [hnm, filter_contains_nil, jsSliceTo_nil]
    rw [if_neg (by simp)]
    exact hm
  have hgf : ∀ (m : JsMap), AllEntries (fun _ v => v = ["Lang: ETC"]) m →
      AllEntries (fun _ v => v = ["Lang: ETC"])
        (gapFill (defaultCategoryOf []) m repoIds) := by
    intro m hm
    refine allEntries_foldl (fun m id _ hm => ?_) hm
    split
    · exact hm
    · exact allEntries_mapSet hm (by rw [hdfl])
  unfold parseBatchClassifierResponse parseBatchWith
  cases tryEntriesWith false text with
  | ok es => exact hgf _ (htr es [] hnil)
  | error es => exact hgf _ (hfb _ (htr es [] hnil))

/-- C9: with an empty category set the parser raises no error; every batch
target id is mapped to exactly `["Lang: ETC"]`, a hard-coded name that is not
a member of the (empty) supplied set. -/
theorem parseBatch_empty_categories (cfg : Config) (text : String) (repoIds : List String) :
    (∀ id ∈ repoIds,
      mapGet (parseBatchClassifierResponse cfg text repoIds []) (.str id)
        = some ["Lang: ETC"]) ∧
    "Lang: ETC" ∉ validNames [] := by
  constructor
  · intro id hid
    obtain ⟨v, hv⟩ := mapGet_some_of_mapHas (parse_covers cfg text repoIds [] id hid)
    have hveq := parse_nilcats_allEntries cfg text repoIds _ (mem_of_mapGet_some hv)
    dsimp only at hveq
    rw [hv, hveq]
  · simp [validNames]

/-- Witness for C9 at a concrete batch and text. -/
theorem parseBatch_empty_categories_witness :
    mapGet (parseBatchClassifierResponse ⟨3, 20, 2000⟩ "z" ["q"] []) (.str "q")
      = some ["Lang: ETC"] :=
  (parseBatch_empty_categories ⟨3, 20, 2000⟩ "z" ["q"]).1 "q" (by decide)

/-! ## C3: the retry bound -/

theorem retryAux_exhausted (fn : Nat → Except ε α) (init maxD attempt : Nat)
    (last : Option ε) :
    retryAux fn init maxD attempt 0 last = ⟨.error last, 0, []⟩ := by
  rw [retryAux.eq_def]

theorem retryAux_step (fn : Nat → Except ε α) (init maxD attempt left : Nat)
    (last : Option ε) (e : ε) (he : fn attempt = .error e) :
    retryAux fn init maxD attempt (left + 1) last =
      ⟨(retryAux fn init maxD (attempt + 1) left (some e)).result,
       (retryAux fn init maxD (attempt + 1) left (some e)).attempts + 1,
       if 0 < left then
         min (init * 2 ^ attempt) maxD ::
           (retryAux fn init maxD (attempt + 1) left (some e)).delays
       else (retryAux fn init maxD (attempt + 1) left (some e)).delays⟩ := by
  rw [retryAux.eq_def]
  dsimp only
  rw [he]

theorem retryAux_allfail (fn : Nat → Except ε α) (errs : Nat → ε)
    (hf : ∀ i, fn i = .error (errs i)) (init maxD : Nat) :
    ∀ (left attempt : Nat) (last : Option ε),
      retryAux fn init maxD attempt (left + 1) last =
        ⟨.error (some (errs (attempt + left))), left + 1,
         (List.range left).map (fun j => min (init * 2 ^ (attempt + j)) maxD)⟩ := by
  intro left
  induction left with
  | zero =>
    intro attempt last
    rw [retryAux_step fn init maxD attempt 0 last (errs attempt) (hf attempt)]
    rw [retryAux_exhausted]
    simp
  | succ n ih =>
    intro attempt last
    rw [retryAux_step fn init maxD attempt (n + 1) last (errs attempt) (hf attempt)]
    rw [ih (attempt + 1) (some (errs attempt))]
    refine congrArg₂ (fun r d => RetryTrace.mk r (n + 1 + 1) d) ?_ ?_
    · rw [Nat.add_assoc, Nat.add_comm 1 n]
    · rw [if_pos (Nat.succ_pos n)]
      rw [List.range_succ_eq_map]
      simp only [List.map_cons, List.map_map]
      refine congrArg₂ List.cons (by rw [Nat.add_zero]) ?_
      apply List.map_congr_left
      intro j _
      simp only [Function.comp_apply]
      have hj : attempt + 1 + j = attempt + j.succ := by omega
      rw [hj]

/-- C3: an operation that fails on every attempt is invoked exactly
`maxRetries + 1` times, the delay awaited between attempts `a` and `a + 1` is
`min(initialDelayMs * 2 ^ a, maxDelayMs)`, and the error finally raised is the
one observed on the last attempt. -/
theorem retryWithBackoff_always_fails (fn : Nat → Except ε α) (errs : Nat → ε)
    (maxRetries initialDelayMs maxDelayMs : Nat)
    (hf : ∀ i, fn i = .error (errs i)) :
    retryWithBackoff fn maxRetries initialDelayMs maxDelayMs =
      ⟨.error (some (errs maxRetries)), maxRetries + 1,
       (List.range maxRetries).map
         (fun a => min (initialDelayMs * 2 ^ a) maxDelayMs)⟩ := by
  unfold retryWithBackoff
  simpa using retryAux_allfail fn errs hf initialDelayMs maxDelayMs maxRetries 0 none

/-- Witness for C3: three retries, base delay 500ms, cap 5000ms. -/
theorem retryWithBackoff_always_fails_witness :
    retryWithBackoff (fun i => (Except.error i : Except Nat Unit)) 3 500 5000 =
      ⟨.error (some 3), 4, [500, 1000, 2000]⟩ := by
  rw [retryWithBackoff_always_fails (fun i => (Except.error i : Except Nat Unit))
    (fun i => i) 3 500 5000 (fun i => rfl)]
  rfl

/-! ## C10: ids outside the batch, duplicate ids -/

set_option maxRecDepth 100000 in
/-- C10: in the well-formed path the map gains an entry for every id of the
`results` array — here the id "x", which is not a batch target, so the key set
is a strict superset of the batch — and of the two entries for "x" the later
one ("B") overwrites the earlier ("A") while keeping the first insertion
position. -/
theorem parseBatch_extra_and_duplicate_ids :
    parseBatchClassifierResponse ⟨3, 20, 2000⟩
      "\x7b\"results\":[\x7b\"id\":\"x\",\"categories\":[\"A\"]\x7d,\x7b\"id\":\"x\",\"categories\":[\"B\"]\x7d,\x7b\"id\":\"r1\",\"categories\":[\"A\"]\x7d]\x7d"
      ["r1"] [⟨"A", ""⟩, ⟨"B", ""⟩]
      = [(.str "x", ["B"]), (.str "r1", ["A"])] ∧ ("x" ∈ ["r1"]) = False := by
  constructor
  · decide
  · simp

/-! ## C6: truncation mid-array at the third item -/

set_option maxRecDepth 100000 in
/-- C6: for a batch of three targets whose response is cut off inside the
third item's category array, the recovery path still yields the first two
items' parsed assignments, and the third item gets exactly the default (the
first category of the set). -/
theorem parseBatch_truncated_third_item :
    parseBatchClassifierResponse ⟨3, 20, 2000⟩
      "\x7b\"results\":[\x7b\"id\":\"r1\",\"categories\":[\"B\",\"C\"]\x7d,\x7b\"id\":\"r2\",\"categories\":[\"C\"]\x7d,\x7b\"id\":\"r3\",\"categories\":[\"A\",\""
      ["r1", "r2", "r3"] [⟨"A", ""⟩, ⟨"B", ""⟩, ⟨"C", ""⟩]
      = [(.str "r1", ["B", "C"]), (.str "r2", ["C"]), (.str "r3", ["A"])] ∧
    defaultCategoryOf [⟨"A", ""⟩, ⟨"B", ""⟩, ⟨"C", ""⟩] = "A" := by
  constructor
  · decide
  · rfl

/-! ## C7: the repair transformation on well-formed input -/

theorem lastIndexOfChar_of_getLast (l : List Char) (c : Char)
    (h : l.getLast? = some c) : lastIndexOfChar c l = some (l.length - 1) := by
  unfold lastIndexOfChar
  rw [← List.head?_reverse] at h
  cases hr : l.reverse with
  | nil => rw [hr] at h; simp at h
  | cons a rest =>
    rw [hr] at h
    simp only [List.head?_cons, Option.some.injEq] at h
    rw [List.findIdx?_cons, if_pos (by simp [h])]
    simp

theorem repairChars_balanced (t : List Char) (h : endsWithChar '}' t = true)
    (hbrace : countChar '{' t = countChar '}' t)
    (hbrack : countChar '[' t = countChar ']' t) :
    repairChars t = t := by
  have hlast : t.getLast? = some '}' := by simpa [endsWithChar] using h
  have hne : t ≠ [] := by
    intro hnil
    rw [hnil] at hlast
    simp at hlast
  have hlen : 1 ≤ t.length := by
    cases t with
    | nil => exact absurd rfl hne
    | cons a rest => simp
  unfold repairChars
  rw [lastIndexOfChar_of_getLast t '}' hlast]
  have hdrop : t.drop (t.length - 1 + 1) = [] := by
    rw [Nat.sub_add_cancel hlen]
    exact List.drop_length t
  have hl2 : (if 0 < t.length - 1 then
      (if (t.drop (t.length - 1 + 1)).contains '{' ∧ ¬ (t.drop (t.length - 1 + 1)).contains '}'
        then t.take (t.length - 1 + 1) else t)
      else t) = t := by
    split
    · rw [hdrop]
      rw [if_neg (by simp)]
    · rfl
  rw [hbrace, hbrack]
  simp only [Nat.sub_self, List.replicate_zero, List.append_nil]
  exact hl2

theorem computeJsonStr_forced_eq (text : String)
    (hbrace : countChar '{' (jsTrimChars text.data) = countChar '}' (jsTrimChars text.data))
    (hbrack : countChar '[' (jsTrimChars text.data) = countChar ']' (jsTrimChars text.data)) :
    computeJsonStr true text = computeJsonStr false text := by
  unfold computeJsonStr
  by_cases h : endsWithChar '}' (jsTrimChars text.data) = true
  · rw [if_pos (.inl rfl), if_neg (by simp [h])]
    rw [repairChars_balanced _ h hbrace hbrack]
  · rw [if_pos (.inl rfl), if_pos (.inr (by simpa using h))]

theorem tryEntriesWith_forced_eq (text : String)
    (hbrace : countChar '{' (jsTrimChars text.data) = countChar '}' (jsTrimChars text.data))
    (hbrack : countChar '[' (jsTrimChars text.data) = countChar ']' (jsTrimChars text.data)) :
    tryEntriesWith true text = tryEntriesWith false text := by
  unfold tryEntriesWith
  rw [computeJsonStr_forced_eq text hbrace hbrack]

/-- C7 (amended): forcing a response through the repair transformation yields
the same outcome map as the direct path whenever the trimmed text has
balanced brace and bracket counts — in particular for every well-formed
response without structural delimiter characters inside its string literals.
With unbalanced counts the repair step is not the identity (see the
counterexample). -/
theorem parseBatch_forced_repair_eq (cfg : Config) (text : String) (repoIds : List String)
    (categories : List Category)
    (hbrace : countChar '{' (jsTrimChars text.data) = countChar '}' (jsTrimChars text.data))
    (hbrack : countChar '[' (jsTrimChars text.data) = countChar ']' (jsTrimChars text.data)) :
    parseBatchWith true cfg text repoIds categories =
      parseBatchClassifierResponse cfg text repoIds categories := by
  unfold parseBatchClassifierResponse parseBatchWith
  rw [tryEntriesWith_forced_eq text hbrace hbrack]

set_option maxRecDepth 400000 in
/-- C7 counterexample: a well-formed response (the trimmed text parses as
JSON and the direct path classifies "r1" as ["x,y"]) whose category strings
contain "{" and a comma; forcing it through the repair path appends a spurious
"}", the parse fails, the regex fallback splits the name "x,y" apart, and the
item falls back to the default "d" — a different outcome map. -/
theorem parseBatch_forced_repair_counterexample :
    (jsonParse (String.mk (jsTrimChars
      "\x7b\"results\":[\x7b\"id\":\"r1\",\"categories\":[\"x,y\",\"a\x7b\"]\x7d]\x7d".data))).isSome
      = true ∧
    parseBatchClassifierResponse ⟨3, 20, 2000⟩
      "\x7b\"results\":[\x7b\"id\":\"r1\",\"categories\":[\"x,y\",\"a\x7b\"]\x7d]\x7d"
      ["r1"] [⟨"d", ""⟩, ⟨"x,y", ""⟩] = [(.str "r1", ["x,y"])] ∧
    parseBatchWith true ⟨3, 20, 2000⟩
      "\x7b\"results\":[\x7b\"id\":\"r1\",\"categories\":[\"x,y\",\"a\x7b\"]\x7d]\x7d"
      ["r1"] [⟨"d", ""⟩, ⟨"x,y", ""⟩] = [(.str "r1", ["d"])] := by
  refine ⟨by decide, by decide, by decide⟩

set_option maxRecDepth 400000 in
/-- Witness for the amended C7 theorem at a balanced well-formed response. -/
theorem parseBatch_forced_repair_eq_witness :
    parseBatchWith true ⟨3, 20, 2000⟩
      "\x7b\"results\":[\x7b\"id\":\"r1\",\"categories\":[\"A\"]\x7d]\x7d" ["r1"] [⟨"A", ""⟩] =
    parseBatchClassifierResponse ⟨3, 20, 2000⟩
      "\x7b\"results\":[\x7b\"id\":\"r1\",\"categories\":[\"A\"]\x7d]\x7d" ["r1"] [⟨"A", ""⟩] :=
  parseBatch_forced_repair_eq ⟨3, 20, 2000⟩ _ ["r1"] [⟨"A", ""⟩] (by decide) (by decide)

/-! ## C8: empty resolved list ids -/

/-- C8: an item whose validated category names resolve to no (truthy) backend
list id is recorded as failed with "No matching category", and the
retry-wrapped network mutation is never invoked for it. -/
theorem applyRepoOnce_no_matching_lists (createdLists : List (String × CreatedList))
    (results : JsMap) (repoId : String) (net : Nat → Except String Unit)
    (h : resolveListIds createdLists ((mapGet results (.str repoId)).getD []) = []) :
    applyRepoOnce createdLists results repoId net =
      ⟨repoId, false, none, some "No matching category", 0⟩ := by
  unfold applyRepoOnce
  dsimp only
  rw [h]
  simp

/-- Witness for C8: a classified item none of whose categories names a list. -/
theorem applyRepoOnce_no_matching_lists_witness :
    applyRepoOnce [] [(.str "r", ["A"])] "r" (fun _ => .ok ()) =
      ⟨"r", false, none, some "No matching category", 0⟩ :=
  applyRepoOnce_no_matching_lists [] [(.str "r", ["A"])] "r" (fun _ => .ok ()) (by decide)

/-! ## C5: batch-level classification failure -/

theorem orchFrom_zero (cfg : Config) (createdLists : List (String × CreatedList))
    (repoIds : List String) (classify : Nat → Except Unit JsMap)
    (net : String → Nat → Except String Unit) (b : Nat) :
    orchFrom cfg createdLists repoIds classify net b 0 = ⟨0, 0, [], 0⟩ := by
  rw [orchFrom.eq_def]

theorem orchFrom_succ_error (cfg : Config) (createdLists : List (String × CreatedList))
    (repoIds : List String) (classify : Nat → Except Unit JsMap)
    (net : String → Nat → Except String Unit) (b left : Nat)
    (hc : classify b = .error ()) :
    orchFrom cfg createdLists repoIds classify net b (left + 1) =
      ⟨(orchFrom cfg createdLists repoIds classify net (b + 1) left).success,
       (orchFrom cfg createdLists repoIds classify net (b + 1) left).failed
         + ((repoIds.drop (b * cfg.classifyBatchSize)).take cfg.classifyBatchSize).length,
       (orchFrom cfg createdLists repoIds classify net (b + 1) left).delays,
       (orchFrom cfg createdLists repoIds classify net (b + 1) left).batches + 1⟩ := by
  rw [orchFrom.eq_def]
  dsimp only
  rw [hc]

theorem orchFrom_allfail (cfg : Config) (createdLists : List (String × CreatedList))
    (repoIds : List String) (classify : Nat → Except Unit JsMap)
    (net : String → Nat → Except String Unit) (hcl : ∀ b, classify b = .error ()) :
    ∀ (left b : Nat), orchFrom cfg createdLists repoIds classify net b left =
      ⟨0, ((repoIds.drop (b * cfg.classifyBatchSize)).take
            (left * cfg.classifyBatchSize)).length, [], left⟩ := by
  intro left
  induction left with
  | zero =>
    intro b
    rw [orchFrom_zero]
    simp
  | succ n ih =>
    intro b
    rw [orchFrom_succ_error cfg createdLists repoIds classify net b n (hcl b), ih (b + 1)]
    dsimp only
    have hdd : (repoIds.drop (b * cfg.classifyBatchSize)).drop cfg.classifyBatchSize
        = repoIds.drop ((b + 1) * cfg.classifyBatchSize) := by
      rw [List.drop_drop]
      congr 1
      ring
    have hfail : (repoIds.drop (b * cfg.classifyBatchSize)).take
          ((n + 1) * cfg.classifyBatchSize)
        = (repoIds.drop (b * cfg.classifyBatchSize)).take cfg.classifyBatchSize
          ++ (repoIds.drop ((b + 1) * cfg.classifyBatchSize)).take
              (n * cfg.classifyBatchSize) := by
      rw [show (n + 1) * cfg.classifyBatchSize
          = cfg.classifyBatchSize + n * cfg.classifyBatchSize from by ring]
      rw [List.take_add, hdd]
    rw [hfail, List.length_append]
    refine congrArg₂ (fun f bt => OrchTrace.mk 0 f [] bt) (by omega) rfl

theorem le_totalBatches_mul (cfg : Config) (n : Nat) (hbs : 1 ≤ cfg.classifyBatchSize) :
    n ≤ totalBatches cfg n * cfg.classifyBatchSize := by
  have h1 := Nat.div_add_mod (n + cfg.classifyBatchSize - 1) cfg.classifyBatchSize
  have h2 : (n + cfg.classifyBatchSize - 1) % cfg.classifyBatchSize
      < cfg.classifyBatchSize := Nat.mod_lt _ (by omega)
  unfold totalBatches
  rw [Nat.mul_comm]
  generalize cfg.classifyBatchSize
    * ((n + cfg.classifyBatchSize - 1) / cfg.classifyBatchSize) = t at h1 ⊢
  omega

/-- C5 (amended): when the per-batch oracle call raises an error, the whole
batch is counted as failed (with no per-item record), the inter-batch pacing
delay is skipped — `continue` jumps past it — and the run still processes
every batch: an always-failing oracle yields zero successes, every item
failed, no delay ever awaited, and all `totalBatches` iterations executed. -/
theorem classifyAndAddRepos_classify_failure (cfg : Config)
    (createdLists : List (String × CreatedList)) (repoIds : List String)
    (classify : Nat → Except Unit JsMap) (net : String → Nat → Except String Unit)
    (hbs : 1 ≤ cfg.classifyBatchSize) (hcl : ∀ b, classify b = .error ()) :
    classifyAndAddRepos cfg createdLists repoIds classify net =
      ⟨0, repoIds.length, [], totalBatches cfg repoIds.length⟩ := by
  unfold classifyAndAddRepos
  rw [orchFrom_allfail cfg createdLists repoIds classify net hcl]
  have h1 : ((repoIds.drop (0 * cfg.classifyBatchSize)).take
      (totalBatches cfg repoIds.length * cfg.classifyBatchSize)).length = repoIds.length := by
    rw [Nat.zero_mul, List.drop_zero, List.length_take]
    exact Nat.min_eq_right (le_totalBatches_mul cfg repoIds.length hbs)
  rw [h1]

/-- C5 counterexample: two single-item batches, oracle fails on the first
(non-final) batch — the claimed pacing delay is never awaited, although the
run does continue through both batches. -/
theorem classifyAndAddRepos_skips_pacing_counterexample :
    (classifyAndAddRepos ⟨3, 1, 77⟩ [] ["a", "b"] (fun _ => .error ())
        (fun _ _ => .ok ())).delays = [] ∧
    totalBatches ⟨3, 1, 77⟩ 2 = 2 := by
  exact ⟨by decide, by decide⟩

/-- Witness for the amended C5 theorem on a concrete two-batch run. -/
theorem classifyAndAddRepos_classify_failure_witness :
    classifyAndAddRepos ⟨3, 1, 77⟩ [] ["a", "b"] (fun _ => .error ())
        (fun _ _ => .ok ()) = ⟨0, 2, [], 2⟩ :=
  classifyAndAddRepos_classify_failure ⟨3, 1, 77⟩ [] ["a", "b"] (fun _ => .error ())
    (fun _ _ => .ok ()) (by decide) (fun b => rfl)

/-! ## C4: the bounded concurrency runner -/

theorem mem_set_of_get?_ne (j b : Nat) :
    ∀ (l : List Nat) (w : Nat), j ∈ l → l.get? w ≠ some j → j ∈ l.set w b := by
  intro l
  induction l with
  | nil => intro w hj _; simp at hj
  | cons a rest ih =>
    intro w hj hne
    cases w with
    | zero =>
      rcases List.mem_cons.mp hj with rfl | hj
      · exact absurd (by simp : (j :: rest).get? 0 = some j) hne
      · exact List.mem_cons_of_mem _ hj
    | succ k =>
      rcases List.mem_cons.mp hj with rfl | hj
      · exact List.mem_cons_self _ _
      · exact List.mem_cons_of_mem _ (ih k hj (by simpa using hne))

theorem mem_eraseIdx_of_get?_ne (j : Nat) :
    ∀ (l : List Nat) (w : Nat), j ∈ l → l.get? w ≠ some j → j ∈ l.eraseIdx w := by
  intro l
  induction l with
  | nil => intro w hj _; simp at hj
  | cons a rest ih =>
    intro w hj hne
    cases w with
    | zero =>
      rcases List.mem_cons.mp hj with rfl | hj
      · exact absurd (by simp : (j :: rest).get? 0 = some j) hne
      · simpa [List.eraseIdx] using hj
    | succ k =>
      rcases List.mem_cons.mp hj with rfl | hj
      · simp [List.eraseIdx]
      · simpa [List.eraseIdx] using
          .inr (ih k hj (by simpa using hne))

theorem spawnWorkers_eq (n : Nat) :
    ∀ (w : Nat) (s : CState ρ), s.cursor + w ≤ n →
      spawnWorkers n w s =
        ⟨s.cursor + w, s.results, s.pending ++ List.range' s.cursor w,
         s.invoked ++ List.range' s.cursor w⟩ := by
  intro w
  induction w with
  | zero => intro s h; simp [spawnWorkers]
  | succ k ih =>
    intro s h
    rw [spawnWorkers]
    have hlt : s.cursor < n := by omega
    have htc : tryClaim n s =
        ⟨s.cursor + 1, s.results, s.pending ++ [s.cursor], s.invoked ++ [s.cursor]⟩ := by
      unfold tryClaim
      rw [if_pos hlt]
    rw [htc, ih _ (by dsimp only; omega)]
    dsimp only
    have hc : s.cursor + 1 + k = s.cursor + (k + 1) := by omega
    have happ : ∀ (l : List Nat),
        (l ++ [s.cursor]) ++ List.range' (s.cursor + 1) k = l ++ List.range' s.cursor (k + 1) := by
      intro l
      rw [List.append_assoc, List.singleton_append, ← List.range'_succ]
    rw [hc, happ s.pending, happ s.invoked]

theorem initCState_eq (items : List ι) (C : Nat) (hC : C ≤ items.length) :
    (initCState items C : CState ρ) =
      ⟨min C items.length, List.replicate items.length none,
       List.range (min C items.length), List.range (min C items.length)⟩ := by
  unfold initCState
  rw [spawnWorkers_eq items.length (min C items.length) _
    (by dsimp only; omega)]
  simp [List.range_eq_range']

/-- The execution invariant of `runWithConcurrency`: the shared cursor never
exceeds the item count, the invocation log is exactly the claimed prefix of
indices (each claimed once, in order), every in-flight index was claimed,
workers only finish once the cursor is exhausted, and every claimed index not
in flight already holds its operation's result. -/
def CInv (items : List ι) (op : ι → ρ) (W : Nat) (s : CState ρ) : Prop :=
  s.cursor ≤ items.length ∧
  s.results.length = items.length ∧
  s.invoked = List.range s.cursor ∧
  (∀ i ∈ s.pending, i < s.cursor) ∧
  (s.pending.length = W ∨ s.cursor = items.length) ∧
  (∀ i, i < s.cursor → i ∉ s.pending → s.results.get? i = some ((items.get? i).map op))

theorem CInv_init (items : List ι) (op : ι → ρ) (C : Nat) (hC : C ≤ items.length) :
    CInv items op (min C items.length) (initCState items C) := by
  rw [initCState_eq items C hC]
  refine ⟨by dsimp only; omega, by simp, rfl, ?_, .inl (by simp), ?_⟩
  · intro i hi
    simpa using List.mem_range.mp hi
  · intro i hi hni
    exact absurd (List.mem_range.mpr hi) hni

theorem CInv_step (items : List ι) (op : ι → ρ) (W : Nat) (s : CState ρ)
    (hinv : CInv items op W s) (w : Nat) : CInv items op W (stepWorker items op s w) := by
  obtain ⟨h1, h2, h3, h4, h5, h6⟩ := hinv
  unfold stepWorker
  cases hw : s.pending.get? w with
  | none => exact ⟨h1, h2, h3, h4, h5, h6⟩
  | some i =>
    have hiP : i ∈ s.pending := List.get?_mem hw
    have hic : i < s.cursor := h4 i hiP
    have hiN : i < items.length := by omega
    obtain ⟨hwlen, -⟩ := List.get?_eq_some.mp hw
    dsimp only
    by_cases hcur : s.cursor < items.length
    · rw [if_pos hcur]
      refine ⟨by dsimp only; omega, by simpa using h2, ?_, ?_, ?_, ?_⟩
      · dsimp only
        rw [h3, List.range_succ]
      · intro j hj
        dsimp only at hj ⊢
        rcases List.mem_or_eq_of_mem_set hj with hj | rfl
        · exact Nat.lt_succ_of_lt (h4 j hj)
        · exact Nat.lt_succ_self _
      · rcases h5 with h5 | h5
        · exact .inl (by simpa using h5)
        · omega
      · intro j hj hnj
        dsimp only at hj hnj ⊢
        by_cases hji : j = i
        · subst hji
          exact List.get?_set_eq_of_lt _ (by omega)
        · have hjc : j ≠ s.cursor := by
            intro hjc
            subst hjc
            exact hnj (List.get?_mem (List.get?_set_eq_of_lt s.cursor hwlen))
          have hjlt : j < s.cursor := by omega
          have hjold : j ∉ s.pending := by
            intro hjp
            exact hnj (mem_set_of_get?_ne j s.cursor s.pending w hjp
              (by rw [hw]; simpa using fun h => hji h.symm))
          rw [List.get?_set_ne _ _ (fun h => hji h.symm)]
          exact h6 j hjlt hjold
    · rw [if_neg hcur]
      have hcN : s.cursor = items.length := by omega
      refine ⟨h1, by simpa using h2, h3, ?_, .inr hcN, ?_⟩
      · intro j hj
        dsimp only at hj
        exact h4 j ((s.pending.eraseIdx_sublist w).mem hj)
      · intro j hj hnj
        dsimp only at hj hnj ⊢
        by_cases hji : j = i
        · subst hji
          exact List.get?_set_eq_of_lt _ (by omega)
        · have hjold : j ∉ s.pending := by
            intro hjp
            exact hnj (mem_eraseIdx_of_get?_ne j s.pending w hjp
              (by rw [hw]; simpa using fun h => hji h.symm))
          rw [List.get?_set_ne _ _ (fun h => hji h.symm)]
          exact h6 j hj hjold

theorem CInv_exec (items : List ι) (op : ι → ρ) (W : Nat) :
    ∀ (sched : List Nat) (s : CState ρ), CInv items op W s →
      CInv items op W (execSched items op sched s) := by
  intro sched
  induction sched with
  | nil => intro s h; simpa [execSched] using h
  | cons w rest ih =>
    intro s h
    unfold execSched
    rw [List.foldl_cons]
    exact ih _ (CInv_step items op W s h w)

/-- C4: for `1 ≤ C ≤ N` and any event ordering that drives the run to
completion (`Promise.all` resolved, i.e. no worker pending), the runner
spawned `min(C, N)` workers, the operation was invoked exactly once per item
(the claim log is precisely `0, 1, ..., N-1`), and the result array has
length `N` with `result[i]` holding the operation's value for `items[i]`. -/
theorem runWithConcurrency_spec (items : List ι) (op : ι → ρ) (C : Nat) (sched : List Nat)
    (h1 : 1 ≤ C) (h2 : C ≤ items.length)
    (hdone : (runWithConcurrency items op C sched).pending = []) :
    (initCState items C : CState ρ).pending.length = min C items.length ∧
    (runWithConcurrency items op C sched).invoked = List.range items.length ∧
    (runWithConcurrency items op C sched).results = items.map (fun x => some (op x)) := by
  have hinv : CInv items op (min C items.length) (runWithConcurrency items op C sched) :=
    CInv_exec items op (min C items.length) sched _ (CInv_init items op C h2)
  obtain ⟨hc1, hc2, hc3, hc4, hc5, hc6⟩ := hinv
  have hcur : (runWithConcurrency items op C sched).cursor = items.length := by
    rcases hc5 with h | h
    · rw [hdone] at h
      simp only [List.length_nil] at h
      omega
    · exact h
  refine ⟨by rw [initCState_eq items C h2]; simp, by rw [hc3, hcur], ?_⟩
  apply List.ext_get?
  intro n
  by_cases hn : n < items.length
  · rw [hc6 n (by omega) (by rw [hdone]; simp), List.get?_map]
    obtain ⟨x, hx⟩ : ∃ x, items.get? n = some x :=
      ⟨items.get ⟨n, hn⟩, List.get?_eq_get hn⟩
    rw [hx]
    rfl
  · rw [List.get?_eq_none.mpr (by omega), List.get?_eq_none.mpr (by simpa using hn)]

/-- Witness for C4: three items, two workers, an alternating event order. -/
theorem runWithConcurrency_spec_witness :
    (initCState [10, 20, 30] 2 : CState Nat).pending.length = min 2 3 ∧
    (runWithConcurrency [10, 20, 30] (fun x => x + 1) 2 [0, 1, 0, 1, 0, 1]).invoked
      = List.range 3 ∧
    (runWithConcurrency [10, 20, 30] (fun x => x + 1) 2 [0, 1, 0, 1, 0, 1]).results
      = [some 11, some 21, some 31] :=
  runWithConcurrency_spec [10, 20, 30] (fun x => x + 1) 2 [0, 1, 0, 1, 0, 1]
    (by decide) (by decide) (by decide)

end StarTidy
